import Mathlib

/-!
Verification of the front-matter injection script of this repository
(src/scripts/add-frontmatter.py).  Strings are modelled as lists of
characters.  The behaviour of the two Python regular expressions used by the
script is modelled by the explicit leftmost backtracking search that the
pattern performs; the derivation is documented at each definition.
-/

namespace AddFrontmatter

/-- Character-list form of a string literal. -/
def str (s : String) : List Char := s.data

/-- ASCII whitespace, as matched by the Python regex whitespace class and by
the default str.strip. -/
def isSpace (c : Char) : Bool :=
  if c = ' ' ∨ c = '\t' ∨ c = '\n' ∨ c = '\r' ∨ c = '\x0B' ∨ c = '\x0C' then true else false

/-- Test for the newline character. -/
def nlOnly (c : Char) : Bool := if c = '\n' then true else false

/-- Test for any character other than newline. -/
def notNl (c : Char) : Bool := if c = '\n' then false else true

/-- Python str.strip with no arguments: remove leading and trailing
whitespace. -/
def pyStrip (l : List Char) : List Char :=
  ((l.dropWhile isSpace).reverse.dropWhile isSpace).reverse

/-- Python str.lower on one ASCII character. -/
def lowerC (c : Char) : Char :=
  if 'A' ≤ c ∧ c ≤ 'Z' then Char.ofNat (c.toNat + 32) else c

/-- Python str.lower on a whole string. -/
def lowerS (l : List Char) : List Char := l.map lowerC

/-- Python str.upper on one ASCII character. -/
def upperC (c : Char) : Char :=
  if 'a' ≤ c ∧ c ≤ 'z' then Char.ofNat (c.toNat - 32) else c

/-- ASCII letter test, the cased characters relevant to Python str.title for
the file names handled by the tool. -/
def isAlpha (c : Char) : Bool :=
  if ('a' ≤ c ∧ c ≤ 'z') ∨ ('A' ≤ c ∧ c ≤ 'Z') then true else false

/-- Boolean list-equality test used as a building block for substring
search. -/
def prefB : List Char → List Char → Bool
  | [], _ => true
  | _ :: _, [] => false
  | a :: as, b :: bs => if a = b then prefB as bs else false

/-- Python substring containment, needle before haystack. -/
def isSub : List Char → List Char → Bool
  | n, [] => n.isEmpty
  | n, h :: t => prefB n (h :: t) || isSub n t

/-- Python str.title word state machine: a letter is uppercased when the
previous character is not a letter and lowercased otherwise. -/
def pyTitleAux : Bool → List Char → List Char
  | _, [] => []
  | prevAlpha, c :: r =>
    if isAlpha c then
      (if prevAlpha then lowerC c else upperC c) :: pyTitleAux true r
    else c :: pyTitleAux false r

/-- Python str.title. -/
def pyTitle (l : List Char) : List Char := pyTitleAux false l

/-- The two str.replace calls turning hyphens and underscores into spaces. -/
def sepSpaces (l : List Char) : List Char :=
  l.map (fun c => if c = '-' ∨ c = '_' then ' ' else c)

/-- Whitespace-run normalisation, Python re.sub of one-or-more whitespace by
one space.  The Boolean records whether the previous character was
whitespace. -/
def normAux : Bool → List Char → List Char
  | _, [] => []
  | prevSp, c :: r =>
    if isSpace c then
      (if prevSp then normAux true r else ' ' :: normAux true r)
    else c :: normAux false r

/-- Whitespace-run normalisation of a whole string. -/
def normWs (l : List Char) : List Char := normAux false l

/-- Fuel-driven model of Python str.replace with empty replacement: delete
every non-overlapping occurrence of the pattern, scanning left to right.
The fuel is instantiated with the length of the scanned string, which always
suffices. -/
def remAll (pat : List Char) : Nat → List Char → List Char
  | _, [] => []
  | 0, s => s
  | f + 1, c :: r =>
    if prefB pat (c :: r) then remAll pat f ((c :: r).drop pat.length)
    else c :: remAll pat f r

/-- The hardcoded documentation root of the script, with the trailing slash
used by the relative-path computation. -/
def rootSlash : List Char := str "/home/devuser/workspace/project2/docs/"

/-- The relative-path computation of create_frontmatter: delete every
occurrence of the root prefix from the absolute path. -/
def relOf (s : List Char) : List Char := remAll rootSlash s.length s

/-- The part of a path after the last slash. -/
def basenameOf (s : List Char) : List Char :=
  (s.reverse.takeWhile (fun c => if c = '/' then false else true)).reverse

/-- Python pathlib stem: the base name without its final suffix; a dot that
is the first or the last character of the base name does not start a
suffix. -/
def stemOf (s : List Char) : List Char :=
  let b := basenameOf s
  let rb := b.reverse
  let k := (rb.takeWhile (fun c => if c = '.' then false else true)).length
  if k = 0 then b
  else if k = rb.length then b
  else if rb.drop (k + 1) = [] then b
  else ((rb.drop (k + 1)).reverse)

/-- The metadata record resolved for one file. -/
structure MetaRecord where
  title : List Char
  description : List Char
  category : List Char
  tags : List (List Char)
  difficulty : Option (List Char)
deriving DecidableEq

/-- The curated table METADATA_MAP of the script, transcribed entry by
entry in source order. -/
def METADATA_MAP : List (List Char × MetaRecord) :=
  [ (str "adr/002-three-tier-hierarchy.md",
     { title := str "ADR-002: Three-Tier BBS Hierarchy"
       description := str "Decision to use three-tier hierarchy (Zone/Section/Forum) for BBS organization"
       category := str "reference"
       tags := [str "adr", str "architecture", str "nostr", str "channels", str "design"]
       difficulty := some (str "advanced") })
  , (str "adr/003-gcp-cloud-run-infrastructure.md",
     { title := str "ADR-003: GCP Cloud Run Infrastructure"
       description := str "Decision to deploy relay on Google Cloud Run with PostgreSQL storage"
       category := str "reference"
       tags := [str "adr", str "deployment", str "gcp", str "infrastructure", str "devops"]
       difficulty := some (str "advanced") })
  , (str "adr/004-zone-based-access-control.md",
     { title := str "ADR-004: Zone-Based Access Control"
       description := str "Decision to implement zone-based cohort access control using admin whitelists"
       category := str "reference"
       tags := [str "adr", str "security", str "access-control", str "zones", str "admin"]
       difficulty := some (str "advanced") })
  , (str "adr/005-nip-44-encryption-mandate.md",
     { title := str "ADR-005: NIP-44 Encryption Mandate"
       description := str "Decision to mandate NIP-44 encryption for all new encrypted content"
       category := str "reference"
       tags := [str "adr", str "security", str "encryption", str "nostr", str "nip-44"]
       difficulty := some (str "advanced") })
  , (str "adr/006-client-side-wasm-search.md",
     { title := str "ADR-006: Client-Side WASM Search"
       description := str "Decision to implement client-side semantic search using WASM and HNSW indexing"
       category := str "reference"
       tags := [str "adr", str "search", str "wasm", str "performance", str "pwa"]
       difficulty := some (str "advanced") })
  , (str "adr/007-sveltekit-ndk-frontend.md",
     { title := str "ADR-007: SvelteKit + NDK Frontend"
       description := str "Decision to use SvelteKit with NDK for frontend development"
       category := str "reference"
       tags := [str "adr", str "architecture", str "frontend", str "svelte", str "ndk"]
       difficulty := some (str "intermediate") })
  , (str "adr/008-postgresql-relay-storage.md",
     { title := str "ADR-008: PostgreSQL Relay Storage"
       description := str "Decision to use PostgreSQL for relay event storage with strfry"
       category := str "reference"
       tags := [str "adr", str "database", str "postgresql", str "relay", str "storage"]
       difficulty := some (str "advanced") })
  , (str "adr/009-user-registration-flow.md",
     { title := str "ADR-009: User Registration Flow"
       description := str "Decision on simplified user registration with password-based key derivation"
       category := str "reference"
       tags := [str "adr", str "authentication", str "user", str "registration", str "security"]
       difficulty := some (str "intermediate") })
  ]

/-- Exact-key lookup in the curated table, the Python dict access. -/
def metaLookup (k : List Char) : List (List Char × MetaRecord) → Option MetaRecord
  | [] => none
  | (k2, m) :: r => if k = k2 then some m else metaLookup k r

/-- The infer_category chain of the script: substring tests against the
lowercased absolute path, in the fixed source order. -/
def infer_category (fp : List Char) : List Char :=
  let p := lowerS fp
  if isSub (str "tutorial") p || isSub (str "getting-started") p then str "tutorial"
  else if isSub (str "howto") p || isSub (str "guide") p then str "howto"
  else if isSub (str "reference") p || isSub (str "api") p || isSub (str "adr") p then str "reference"
  else if isSub (str "explanation") p || isSub (str "architecture") p || isSub (str "ddd") p then str "explanation"
  else if isSub (str "user") p then str "tutorial"
  else if isSub (str "developer") p then str "reference"
  else str "reference"

/-- The independent tag rules of infer_tags, in source order, each paired
with the tag it contributes.  The first component of each pair is the fired
condition on the lowercased path and lowercased title. -/
def tagRules (p t : List Char) : List (Bool × List Char) :=
  [ (isSub (str "user") p, str "user")
  , (isSub (str "developer") p || isSub (str "dev") p, str "developer")
  , (isSub (str "admin") p, str "admin")
  , (isSub (str "nostr") p || isSub (str "nostr") t, str "nostr")
  , (isSub (str "auth") p || isSub (str "auth") t, str "authentication")
  , (isSub (str "message") p || isSub (str "dm") p, str "messaging")
  , (isSub (str "channel") p || isSub (str "chat") p, str "channels")
  , (isSub (str "security") p || isSub (str "security") t, str "security")
  , (isSub (str "deploy") p, str "deployment")
  , (isSub (str "adr") p, str "adr")
  , (isSub (str "architecture") p || isSub (str "architecture") t, str "architecture")
  , (isSub (str "ddd") p, str "ddd")
  , (isSub (str "guide") p || isSub (str "guide") t, str "guide")
  , (isSub (str "reference") p || isSub (str "api") p, str "reference")
  , (isSub (str "calendar") p || isSub (str "event") p, str "calendar")
  , (isSub (str "search") p, str "search")
  , (isSub (str "zone") p, str "zones")
  , (isSub (str "pwa") p, str "pwa")
  ]

/-- The set of tags collected by the rules, as a duplicate-free list: the
contributed tags are pairwise distinct constants, so the Python set is
exactly the list of fired rules. -/
def tagsRaw (p t : List Char) : List (List Char) :=
  ((tagRules p t).filter (fun pr => pr.1)).map (fun pr => pr.2)

/-- Boolean lexicographic comparison of strings by code point, the order of
Python sorted on str. -/
def lexLeB : List Char → List Char → Bool
  | [], _ => true
  | _ :: _, [] => false
  | a :: as, b :: bs =>
    if a.toNat < b.toNat then true
    else if b.toNat < a.toNat then false
    else lexLeB as bs

/-- The lexicographic order as a relation, for the Mathlib sorting
lemmas. -/
def lexRel (a b : List Char) : Prop := lexLeB a b = true

instance : DecidableRel lexRel := fun a b =>
  inferInstanceAs (Decidable (lexLeB a b = true))

/-- First augmentation step of infer_tags: an empty set receives the tag
documentation. -/
def augEmpty (raw : List (List Char)) : List (List Char) :=
  if raw = [] then [str "documentation"] else raw

/-- Second augmentation step of infer_tags: a one-element set receives the
tag guide, a no-op of the Python set when the element is already guide. -/
def augSize (t1 : List (List Char)) : List (List Char) :=
  if t1.length = 1 then
    (if str "guide" ∈ t1 then t1 else t1 ++ [str "guide"]) else t1

/-- The infer_tags function of the script: fire the rules, then the two
augmentation steps (empty check first, then size-one check), then sort. -/
def infer_tags (fp title : List Char) : List (List Char) :=
  List.insertionSort lexRel (augSize (augEmpty (tagsRaw (lowerS fp) (lowerS title))))

/-- The infer_difficulty chain of the script, in source order. -/
def infer_difficulty (fp : List Char) : Option (List Char) :=
  let p := lowerS fp
  if isSub (str "user") p || isSub (str "getting-started") p then some (str "beginner")
  else if isSub (str "adr") p || isSub (str "architecture") p || isSub (str "ddd") p then some (str "advanced")
  else if isSub (str "developer") p then some (str "intermediate")
  else none

/-!
Model of the title regex, pattern hash, whitespace run, captured rest of
line, in multiline mode.  The engine tries every line start in order; at a
hash it consumes the maximal whitespace run (which may span line breaks),
then captures the rest of the line when a character follows the run; when
the run reaches the end of input it backtracks, succeeding with an
all-whitespace capture exactly when the run minus its first character
contains a non-newline character.  The returned value is the stripped
capture.  This derivation was cross-checked exhaustively against the Python
engine on all strings of length at most seven over a four-character
alphabet and on thirty thousand longer random strings.
-/

/-- Attempt of the title pattern just after a line-start hash. -/
def tryHash (rest : List Char) : Option (List Char) :=
  match rest.takeWhile isSpace, rest.dropWhile isSpace with
  | [], _ => none
  | _ :: _, a :: az => some (pyStrip ((a :: az).takeWhile notNl))
  | _ :: wt, [] => if wt.any (fun c => notNl c) then some [] else none

/-- Scan of the content for the leftmost title-pattern match; the Boolean
says whether the current position is a line start. -/
def scanTitle : Bool → List Char → Option (List Char)
  | _, [] => none
  | atStart, c :: rest =>
    if atStart = true ∧ c = '#' then
      match tryHash rest with
      | some t => some t
      | none => scanTitle false rest
    else scanTitle (nlOnly c) rest

/-- The extract_title_from_heading function of the script. -/
def extract_title_from_heading (content : List Char) : Option (List Char) :=
  scanTitle true content

/-!
Model of the description regex: an optional leading group of hash, lazy
anything, one-or-more newlines, then a lazy nonempty capture, then a
terminator that is either a blank line or a newline followed by two hashes,
in multiline and dotall mode.  The search tries positions in order (only
line starts can match); at each position the present-group branch is tried
first, scanning forward for newline runs, consuming each run greedily from
the longest suffix position backwards, and capturing up to the nearest
terminator; when the group branch fails the capture starts at the position
itself.  Cross-checked against the Python engine on the same corpus as the
title pattern.
-/

/-- Terminator test of the description pattern. -/
def isTermB : List Char → Bool
  | '\n' :: '\n' :: _ => true
  | '\n' :: '#' :: '#' :: _ => true
  | _ => false

/-- Lazy nonempty capture: the shortest nonempty prefix whose remaining
suffix starts with a terminator. -/
def grab : List Char → Option (List Char)
  | [] => none
  | c :: r => if isTermB r then some [c] else (grab r).map (fun g => c :: g)

/-- Backtracking over the one-or-more newline quantifier: the first
argument counts the remaining split positions, largest consumed run
first. -/
def tryDesc : Nat → List Char → Option (List Char)
  | 0, _ => none
  | m + 1, after =>
    match grab after with
    | some g => some g
    | none => tryDesc m ('\n' :: after)

/-- Scan after the leading hash for a newline run making the group branch
succeed. -/
def tryNlScan : List Char → Option (List Char)
  | [] => none
  | c :: rest =>
    if c = '\n' then
      match tryDesc (1 + (rest.takeWhile nlOnly).length) (rest.dropWhile nlOnly) with
      | some g => some g
      | none => tryNlScan rest
    else tryNlScan rest

/-- Match attempt of the description pattern at one position: group branch
first when the position holds a hash, plain capture otherwise. -/
def matchAt (u : List Char) : Option (List Char) :=
  match u with
  | '#' :: w =>
    (match tryNlScan w with
     | some g => some g
     | none => grab ('#' :: w))
  | _ => grab u

/-- Search over the later line starts of the content. -/
def searchLines : List Char → Option (List Char)
  | [] => none
  | c :: rest =>
    if c = '\n' then
      match matchAt rest with
      | some g => some g
      | none => searchLines rest
    else searchLines rest

/-- Leftmost match of the description pattern over the whole content. -/
def searchDesc (s : List Char) : Option (List Char) :=
  match matchAt s with
  | some g => some g
  | none => searchLines s

/-- The description computation of create_frontmatter: strip the captured
group, normalise whitespace, truncate to two hundred characters; fall back
to the resolved title followed by the word documentation. -/
def descOf (title content : List Char) : List Char :=
  match searchDesc content with
  | some g => (normWs (pyStrip g)).take 200
  | none => title ++ str " documentation"

/-- The title fallback of create_frontmatter: stem with separators turned
into spaces, then Python title case. -/
def fallbackTitle (fp : List Char) : List Char := pyTitle (sepSpaces (stemOf fp))

/-- The heuristic title of create_frontmatter: the extracted heading when
it is present and nonempty (the falsy check of Python), otherwise the stem
fallback. -/
def resolveTitle (fp content : List Char) : List Char :=
  match extract_title_from_heading content with
  | some t => if t = [] then fallbackTitle fp else t
  | none => fallbackTitle fp

/-- The metadata resolution of create_frontmatter: curated lookup on the
relative path, otherwise heuristic title, description, category, tags and
difficulty. -/
def resolveMeta (fp content : List Char) : MetaRecord :=
  match metaLookup (relOf fp) METADATA_MAP with
  | some m => m
  | none =>
    { title := resolveTitle fp content
      description := descOf (resolveTitle fp content) content
      category := infer_category fp
      tags := infer_tags fp (resolveTitle fp content)
      difficulty := infer_difficulty fp }

/-- The apostrophe character used by the Python list rendering. -/
def quoteC : Char := Char.ofNat 39

/-- Comma separated quoted items of the Python list rendering. -/
def renderItems : List (List Char) → List Char
  | [] => []
  | [x] => quoteC :: (x ++ [quoteC])
  | x :: y :: r => quoteC :: (x ++ (quoteC :: ',' :: ' ' :: renderItems (y :: r)))

/-- Python str of a list of strings, as interpolated into the tags line. -/
def renderPyList (ts : List (List Char)) : List Char :=
  '[' :: (renderItems ts ++ [']'])

/-- The opening delimiter line of the rendered block. -/
def fmHead : List Char := str "---\n"

/-- The rendered front-matter block of create_frontmatter, with the date
stamped at render time passed in as the today argument. -/
def frontmatterText (m : MetaRecord) (today : List Char) : List Char :=
  fmHead ++ (str "title: \"" ++ (m.title ++ (str "\"\ndescription: \"" ++ (m.description ++
    (str "\"\ncategory: " ++ (m.category ++ (str "\ntags: " ++ (renderPyList m.tags ++
    (str "\n" ++ ((match m.difficulty with
      | some d => str "difficulty: " ++ (d ++ str "\n")
      | none => []) ++ (str "last-updated: " ++ (today ++ str "\n---\n\n"))))))))))))

/-- The has_frontmatter check of the script: the first line, stripped,
equals the delimiter. -/
def has_frontmatter (content : List Char) : Bool :=
  if pyStrip (content.takeWhile notNl) = str "---" then true else false

/-- The add_frontmatter_to_file step of the script: skip when front matter
is present, otherwise rewrite the file as the rendered block followed by
the original content; the Boolean reports whether the file was updated. -/
def add_frontmatter_to_file (fp content today : List Char) : List Char × Bool :=
  if has_frontmatter content then (content, false)
  else (frontmatterText (resolveMeta fp content) today ++ content, true)

/-- One file of the walk of main: the pair holds the path relative to the
documentation root and the current content. -/
def processEntry (today : List Char) (rc : List Char × List Char) :
    (List Char × List Char) × Bool :=
  let r := add_frontmatter_to_file (rootSlash ++ rc.1) rc.2 today
  ((rc.1, r.1), r.2)

/-- One run of main over the files found under the root: the resulting
contents and the number of updated files. -/
def runOnce (today : List Char) (files : List (List Char × List Char)) :
    List (List Char × List Char) × Nat :=
  let rs := files.map (processEntry today)
  (rs.map (fun x => x.1), (rs.filter (fun x => x.2)).length)

/-!
Spec-side reading of the title rule, for the refinement claim about the
resolved title: a level-1 heading is a line made of a hash, whitespace and
same-line text, and the title is the stripped text of the first such line.
-/

/-- Split of the content into lines at newline characters. -/
def splitNl : List Char → List (List Char)
  | [] => [[]]
  | c :: r =>
    if c = '\n' then [] :: splitNl r
    else
      match splitNl r with
      | [] => [[c]]
      | l :: ls => (c :: l) :: ls

/-- Join of lines with newline separators, inverse of the split. -/
def joinNl : List (List Char) → List Char
  | [] => []
  | [l] => l
  | l :: ls => l ++ '\n' :: joinNl ls

/-- Modelled from the spec: the text of a level-1 heading line, a hash
followed by whitespace and nonempty same-line text, stripped. -/
def headingText : List Char → Option (List Char)
  | '#' :: rest =>
    (match rest with
     | [] => none
     | c :: _ =>
       if isSpace c then
         (if rest.dropWhile isSpace = [] then none else some (pyStrip rest))
       else none)
  | _ => none

/-- Modelled from the spec: the text of the first level-1 heading among the
lines of the content. -/
def specFindH1 : List (List Char) → Option (List Char)
  | [] => none
  | l :: ls =>
    match headingText l with
    | some t => some t
    | none => specFindH1 ls

/-- Hypothesis class for the amended title claim: a line whose hash is
followed only by whitespace to the end of the line is excluded, because
there the regex whitespace quantifier crosses the line break. -/
def okLine : List Char → Bool
  | '#' :: rest =>
    (match rest with
     | [] => false
     | c :: _ =>
       if isSpace c then
         (if rest.dropWhile isSpace = [] then false else true)
       else true)
  | _ => true

/-! Helper lemmas about the string utilities. -/

theorem prefB_self_append (p t : List Char) : prefB p (p ++ t) = true := by
  induction p with
  | nil => rfl
  | cons c cs ih => simp [prefB, ih]

theorem prefB_append_of_prefB {n h : List Char} (t : List Char)
    (hp : prefB n h = true) : prefB n (h ++ t) = true := by
  induction n generalizing h with
  | nil => rfl
  | cons c cs ih =>
    cases h with
    | nil => simp [prefB] at hp
    | cons d ds =>
      rw [prefB] at hp
      by_cases hcd : c = d
      · subst hcd
        simp only [if_pos rfl] at hp
        simpa [prefB] using ih hp
      · simp [if_neg hcd] at hp

theorem isSub_append_left {n h : List Char} (t : List Char)
    (hs : isSub n h = true) : isSub n (h ++ t) = true := by
  induction h with
  | nil =>
    rw [isSub, List.isEmpty_iff] at hs
    subst hs
    cases t with
    | nil => rfl
    | cons c r => simp [isSub, prefB]
  | cons c r ih =>
    rw [isSub, Bool.or_eq_true] at hs
    rw [List.cons_append, isSub, Bool.or_eq_true]
    rcases hs with hs | hs
    · exact Or.inl (prefB_append_of_prefB t hs)
    · exact Or.inr (ih hs)

theorem isSub_cons_false {n : List Char} {c : Char} {r : List Char}
    (h : isSub n (c :: r) = false) :
    prefB n (c :: r) = false ∧ isSub n r = false := by
  rw [isSub, Bool.or_eq_false_iff] at h
  exact h

theorem remAll_of_not_sub (pat : List Char) :
    ∀ (f : Nat) (s : List Char), s.length ≤ f → isSub pat s = false →
      remAll pat f s = s := by
  intro f
  induction f with
  | zero =>
    intro s hl _
    cases s with
    | nil => rfl
    | cons c r => simp at hl
  | succ n ih =>
    intro s hl hsub
    cases s with
    | nil => rfl
    | cons c r =>
      obtain ⟨hp, hr⟩ := isSub_cons_false hsub
      rw [remAll, if_neg (by simp [hp])]
      have hlr : r.length ≤ n := by
        simp only [List.length_cons] at hl
        omega
      rw [ih r hlr hr]

theorem remAll_strip (c : Char) (pt rel : List Char)
    (hrel : isSub (c :: pt) rel = false) :
    remAll (c :: pt) (((c :: pt) ++ rel).length) ((c :: pt) ++ rel) = rel := by
  rw [List.cons_append, List.length_cons, remAll,
    if_pos (by simpa using prefB_self_append (c :: pt) rel)]
  have hdrop : (c :: (pt ++ rel)).drop (c :: pt).length = rel := by
    simp only [List.length_cons, List.drop_succ_cons]
    exact List.drop_left pt rel
  rw [hdrop]
  exact remAll_of_not_sub _ _ _ (by simp [List.length_append]) hrel

theorem relOf_root (rel : List Char) (h : isSub rootSlash rel = false) :
    relOf (rootSlash ++ rel) = rel := by
  have hc : rootSlash = '/' :: str "home/devuser/workspace/project2/docs/" := by decide
  unfold relOf
  rw [hc] at h ⊢
  exact remAll_strip _ _ _ h

/-! Helper lemmas about the rendered block and the skip test. -/

theorem takeWhile_fmHead (y : List Char) :
    (fmHead ++ y).takeWhile notNl = str "---" := by
  have h1 : fmHead = '-' :: '-' :: '-' :: '\n' :: [] := by decide
  have e1 : notNl '-' = true := rfl
  have e2 : notNl '\n' = false := rfl
  rw [h1]
  simp only [List.cons_append, List.nil_append, List.takeWhile_cons, e1, e2,
    Bool.false_eq_true, if_true, if_false]
  decide

theorem has_frontmatter_render (m : MetaRecord) (t c : List Char) :
    has_frontmatter (frontmatterText m t ++ c) = true := by
  unfold has_frontmatter
  have h : (frontmatterText m t ++ c).takeWhile notNl = str "---" := by
    unfold frontmatterText
    rw [List.append_assoc]
    exact takeWhile_fmHead _
  rw [h]
  decide

theorem processEntry_twice (t1 t2 : List Char) (rc : List Char × List Char) :
    processEntry t2 (processEntry t1 rc).1 = ((processEntry t1 rc).1, false) := by
  unfold processEntry add_frontmatter_to_file
  cases hf : has_frontmatter rc.2 with
  | true => simp [hf]
  | false => simp [hf, has_frontmatter_render]

theorem runOnce_skips (t2 : List Char) (L : List (List Char × List Char))
    (h : ∀ rc ∈ L, processEntry t2 rc = (rc, false)) :
    runOnce t2 L = (L, 0) := by
  induction L with
  | nil => rfl
  | cons a l ih =>
    have ha := h a (List.mem_cons_self a l)
    have hl := ih (fun rc hrc => h rc (List.mem_cons_of_mem a hrc))
    unfold runOnce at hl ⊢
    simp only [List.map_cons, List.filter_cons, ha] at *
    simp only [Prod.mk.injEq] at hl ⊢
    constructor
    · exact congrArg (List.cons a) hl.1
    · simpa using hl.2

/-! Helper lemmas about the lexicographic order and the tag rules. -/

theorem lexLeB_total : ∀ a b : List Char, lexLeB a b = true ∨ lexLeB b a = true := by
  intro a
  induction a with
  | nil => intro b; exact Or.inl rfl
  | cons x xs ih =>
    intro b
    cases b with
    | nil => exact Or.inr rfl
    | cons y ys =>
      by_cases h1 : x.toNat < y.toNat
      · left; simp [lexLeB, h1]
      · by_cases h2 : y.toNat < x.toNat
        · right; simp [lexLeB, h2]
        · rcases ih ys with h | h
          · left; simp [lexLeB, h1, h2, h]
          · right; simp [lexLeB, h1, h2, h]

theorem lexLeB_trans : ∀ a b c : List Char,
    lexLeB a b = true → lexLeB b c = true → lexLeB a c = true := by
  intro a
  induction a with
  | nil => intros; rfl
  | cons x xs ih =>
    intro b c hab hbc
    cases b with
    | nil => simp [lexLeB] at hab
    | cons y ys =>
      cases c with
      | nil => simp [lexLeB] at hbc
      | cons z zs =>
        rw [lexLeB] at hab hbc ⊢
        by_cases hxy : x.toNat < y.toNat
        · by_cases hyz : y.toNat < z.toNat
          · simp [Nat.lt_trans hxy hyz]
          · by_cases hzy : z.toNat < y.toNat
            · simp [hyz, hzy] at hbc
            · have hxz : x.toNat < z.toNat := by omega
              simp [hxz]
        · by_cases hyx : y.toNat < x.toNat
          · simp [hxy, hyx] at hab
          · by_cases hyz : y.toNat < z.toNat
            · have hxz : x.toNat < z.toNat := by omega
              simp [hxz]
            · by_cases hzy : z.toNat < y.toNat
              · simp [hyz, hzy] at hbc
              · have hxz : ¬ x.toNat < z.toNat := by omega
                have hzx : ¬ z.toNat < x.toNat := by omega
                simp [hxy, hyx] at hab
                simp [hyz, hzy] at hbc
                simp [hxz, hzx]
                exact ih _ _ hab hbc

instance : IsTotal (List Char) lexRel := ⟨lexLeB_total⟩

instance : IsTrans (List Char) lexRel := ⟨fun a b c => lexLeB_trans a b c⟩

/-- The fixed list of tags contributed by the rules, in rule order. -/
def tagVocab : List (List Char) :=
  [str "user", str "developer", str "admin", str "nostr", str "authentication",
   str "messaging", str "channels", str "security", str "deployment", str "adr",
   str "architecture", str "ddd", str "guide", str "reference", str "calendar",
   str "search", str "zones", str "pwa"]

theorem tagRules_snd (p t : List Char) :
    (tagRules p t).map (fun pr => pr.2) = tagVocab := rfl

theorem tagsRaw_sublist (p t : List Char) : List.Sublist (tagsRaw p t) tagVocab := by
  rw [← tagRules_snd p t]
  exact ((tagRules p t).filter_sublist).map (fun pr => pr.2)

theorem tagsRaw_nodup (p t : List Char) : (tagsRaw p t).Nodup := by
  have hv : tagVocab.Nodup := by decide
  exact hv.sublist (tagsRaw_sublist p t)

theorem mem_tagsRaw {p t tag : List Char} (cond : Bool)
    (hmem : (cond, tag) ∈ tagRules p t) (hc : cond = true) :
    tag ∈ tagsRaw p t := by
  subst hc
  unfold tagsRaw
  exact List.mem_map.mpr ⟨(true, tag), List.mem_filter.mpr ⟨hmem, rfl⟩, rfl⟩

theorem user_mem_tagsRaw {p t : List Char} (h : isSub (str "user") p = true) :
    str "user" ∈ tagsRaw p t := by
  apply mem_tagsRaw (isSub (str "user") p) _ h
  unfold tagRules
  exact List.mem_cons_self _ _

theorem developer_mem_tagsRaw {p t : List Char} (h : isSub (str "dev") p = true) :
    str "developer" ∈ tagsRaw p t := by
  apply mem_tagsRaw (isSub (str "developer") p || isSub (str "dev") p)
  · unfold tagRules
    exact List.mem_cons_of_mem _ (List.mem_cons_self _ _)
  · simp [h]

theorem mem_augEmpty {x : List Char} {l : List (List Char)} (h : x ∈ l) :
    x ∈ augEmpty l := by
  unfold augEmpty
  rw [if_neg (List.ne_nil_of_mem h)]
  exact h

theorem mem_augSize {x : List Char} {l : List (List Char)} (h : x ∈ l) :
    x ∈ augSize l := by
  unfold augSize
  split
  · split
    · exact h
    · exact List.mem_append_left _ h
  · exact h

theorem nodup_augEmpty {l : List (List Char)} (h : l.Nodup) :
    (augEmpty l).Nodup := by
  unfold augEmpty
  split
  · simp
  · exact h

theorem nodup_augSize {l : List (List Char)} (h : l.Nodup) :
    (augSize l).Nodup := by
  unfold augSize
  split
  · split
    · exact h
    · rename_i hg
      rw [List.nodup_append]
      refine ⟨h, by simp, ?_⟩
      intro a ha hag
      rw [List.mem_singleton] at hag
      subst hag
      exact hg ha
  · exact h

theorem mem_infer_tags {fp title x : List Char}
    (hx : x ∈ tagsRaw (lowerS fp) (lowerS title)) : x ∈ infer_tags fp title := by
  unfold infer_tags
  exact ((List.perm_insertionSort lexRel _).mem_iff).mpr
    (mem_augSize (mem_augEmpty hx))

theorem two_le_of_two_mem {α : Type} {a b : α} {l : List α}
    (ha : a ∈ l) (hb : b ∈ l) (hab : a ≠ b) : 2 ≤ l.length := by
  cases l with
  | nil => cases ha
  | cons x r =>
    cases r with
    | nil =>
      rw [List.mem_singleton] at ha hb
      exact absurd (ha.trans hb.symm) hab
    | cons y s => simp [List.length_cons]

theorem metaLookup_mem {k : List Char} {L : List (List Char × MetaRecord)}
    {m : MetaRecord} (h : metaLookup k L = some m) :
    m ∈ L.map (fun kv => kv.2) := by
  induction L with
  | nil => simp [metaLookup] at h
  | cons a l ih =>
    rw [metaLookup] at h
    split at h
    · rw [Option.some_inj] at h
      subst h
      exact List.mem_map.mpr ⟨a, List.mem_cons_self _ _, rfl⟩
    · exact List.mem_cons_of_mem _ (ih h)

theorem lowerS_append (a b : List Char) :
    lowerS (a ++ b) = lowerS a ++ lowerS b := List.map_append lowerC a b

theorem user_sub_abs (rel : List Char) :
    isSub (str "user") (lowerS (rootSlash ++ rel)) = true := by
  rw [lowerS_append]
  exact isSub_append_left _ (by decide)

theorem dev_sub_abs (rel : List Char) :
    isSub (str "dev") (lowerS (rootSlash ++ rel)) = true := by
  rw [lowerS_append]
  exact isSub_append_left _ (by decide)

/-! Claim theorems. -/

/-- C3: the hardcoded root contains the substrings user and dev inside the
word devuser, so every heuristically resolved file of an actual run
receives tags containing both user and developer and receives the
difficulty beginner through the user substring rule. -/
theorem C3_devuser_root (rel content : List Char)
    (hlook : metaLookup (relOf (rootSlash ++ rel)) METADATA_MAP = none) :
    str "user" ∈ (resolveMeta (rootSlash ++ rel) content).tags
    ∧ str "developer" ∈ (resolveMeta (rootSlash ++ rel) content).tags
    ∧ (resolveMeta (rootSlash ++ rel) content).difficulty
      = some (str "beginner") := by
  unfold resolveMeta
  rw [hlook]
  refine ⟨?_, ?_, ?_⟩
  · exact mem_infer_tags (user_mem_tagsRaw (user_sub_abs rel))
  · exact mem_infer_tags (developer_mem_tagsRaw (dev_sub_abs rel))
  · show infer_difficulty (rootSlash ++ rel) = some (str "beginner")
    unfold infer_difficulty
    rw [if_pos (by simp [user_sub_abs rel])]

/-- C3 witness: a concrete non-curated file receives the user and developer
tags and the beginner difficulty. -/
theorem C3_witness :
    str "user" ∈ (resolveMeta (rootSlash ++ str "handbook/setup.md")
        (str "hello")).tags
    ∧ str "developer" ∈ (resolveMeta (rootSlash ++ str "handbook/setup.md")
        (str "hello")).tags
    ∧ (resolveMeta (rootSlash ++ str "handbook/setup.md")
        (str "hello")).difficulty = some (str "beginner") :=
  C3_devuser_root (str "handbook/setup.md") (str "hello") (by decide)

/-- C1 amended: for every heuristically resolved file of an actual run the
rendered tags list is alphabetically sorted, duplicate free and has at
least two entries; for a curated file the rendered list is the stored table
entry, which is duplicate free with at least two entries but is not always
sorted. -/
theorem C1_amended (rel content : List Char) :
    (metaLookup (relOf (rootSlash ++ rel)) METADATA_MAP = none →
      List.Sorted lexRel (resolveMeta (rootSlash ++ rel) content).tags
      ∧ (resolveMeta (rootSlash ++ rel) content).tags.Nodup
      ∧ 2 ≤ (resolveMeta (rootSlash ++ rel) content).tags.length)
    ∧ (∀ e, metaLookup (relOf (rootSlash ++ rel)) METADATA_MAP = some e →
      (resolveMeta (rootSlash ++ rel) content).tags = e.tags
      ∧ e.tags.Nodup ∧ 2 ≤ e.tags.length) := by
  constructor
  · intro hlook
    unfold resolveMeta
    rw [hlook]
    show List.Sorted lexRel (infer_tags _ _)
      ∧ (infer_tags _ _).Nodup ∧ 2 ≤ (infer_tags _ _).length
    refine ⟨List.sorted_insertionSort lexRel _, ?_, ?_⟩
    · exact ((List.perm_insertionSort lexRel _).symm.nodup)
        (nodup_augSize (nodup_augEmpty (tagsRaw_nodup _ _)))
    · have h1 : str "user" ∈ augSize (augEmpty (tagsRaw
          (lowerS (rootSlash ++ rel)) (lowerS (resolveTitle (rootSlash ++ rel) content)))) :=
        mem_augSize (mem_augEmpty (user_mem_tagsRaw (user_sub_abs rel)))
      have h2 : str "developer" ∈ augSize (augEmpty (tagsRaw
          (lowerS (rootSlash ++ rel)) (lowerS (resolveTitle (rootSlash ++ rel) content)))) :=
        mem_augSize (mem_augEmpty (developer_mem_tagsRaw (dev_sub_abs rel)))
      unfold infer_tags
      rw [(List.perm_insertionSort lexRel _).length_eq]
      exact two_le_of_two_mem h1 h2 (by decide)
  · intro e hlook
    unfold resolveMeta
    rw [hlook]
    have hvals : ∀ e2 ∈ METADATA_MAP.map (fun kv => kv.2),
        e2.tags.Nodup ∧ 2 ≤ e2.tags.length := by decide
    exact ⟨rfl, (hvals e (metaLookup_mem hlook)).1, (hvals e (metaLookup_mem hlook)).2⟩

/-- C1 witness: the amended invariant at a concrete non-curated file. -/
theorem C1_witness :
    List.Sorted lexRel (resolveMeta (rootSlash ++ str "handbook/faq.md")
        (str "hello")).tags
    ∧ (resolveMeta (rootSlash ++ str "handbook/faq.md") (str "hello")).tags.Nodup
    ∧ 2 ≤ (resolveMeta (rootSlash ++ str "handbook/faq.md")
        (str "hello")).tags.length :=
  (C1_amended (str "handbook/faq.md") (str "hello")).1 (by decide)

/-- C4: for every file whose repository-relative path is a key of the
curated table, the resolved metadata record is exactly the curated entry,
with no heuristic inference, normalisation or truncation applied, whatever
the file content is. -/
theorem C4_curated_verbatim (rel content : List Char) (m : MetaRecord)
    (hno : isSub rootSlash rel = false)
    (hlook : metaLookup rel METADATA_MAP = some m) :
    resolveMeta (rootSlash ++ rel) content = m := by
  unfold resolveMeta
  rw [relOf_root rel hno, hlook]

/-- C4 witness: the curated entry for the ADR-002 file is returned
verbatim. -/
theorem C4_witness :
    resolveMeta (rootSlash ++ str "adr/002-three-tier-hierarchy.md") (str "sample")
      = { title := str "ADR-002: Three-Tier BBS Hierarchy"
          description := str "Decision to use three-tier hierarchy (Zone/Section/Forum) for BBS organization"
          category := str "reference"
          tags := [str "adr", str "architecture", str "nostr", str "channels", str "design"]
          difficulty := some (str "advanced") } :=
  C4_curated_verbatim (str "adr/002-three-tier-hierarchy.md") (str "sample") _
    (by decide) (by decide)

/-- C5: a file whose first line is exactly the delimiter is skipped: its
content is returned unchanged and it is not counted as updated. -/
theorem C5_skip_delimiter (fp content today : List Char)
    (h : content.takeWhile notNl = str "---") :
    add_frontmatter_to_file fp content today = (content, false) := by
  unfold add_frontmatter_to_file has_frontmatter
  rw [h]
  simp [show pyStrip (str "---") = str "---" from by decide]

/-- C5 witness: a concrete delimiter-headed file is left unchanged. -/
theorem C5_witness :
    add_frontmatter_to_file (rootSlash ++ str "notes.md") (str "---\nhello world")
      (str "2026-10-12") = (str "---\nhello world", false) :=
  C5_skip_delimiter _ _ _ (by decide)

/-- C6: running the tool twice over the same directory is idempotent: the
second run, on any later date, rewrites no file and reports zero updated
files. -/
theorem C6_idempotent (t1 t2 : List Char) (files : List (List Char × List Char)) :
    runOnce t2 (runOnce t1 files).1 = ((runOnce t1 files).1, 0) := by
  apply runOnce_skips
  intro rc hrc
  have hmap : (runOnce t1 files).1
      = files.map (fun x => (processEntry t1 x).1) := by
    unfold runOnce
    simp [List.map_map, Function.comp]
  rw [hmap] at hrc
  obtain ⟨rc0, _, hrc0⟩ := List.mem_map.mp hrc
  subst hrc0
  exact processEntry_twice t1 t2 rc0

/-- C7 counterexample: a file whose first line is a space followed by the
delimiter is skipped even though its first line is not exactly the
delimiter, so the claimed skip condition is wrong. -/
theorem C7_counterexample :
    (str " ---\nhello").takeWhile notNl ≠ str "---"
    ∧ add_frontmatter_to_file (rootSlash ++ str "notes.md") (str " ---\nhello")
        (str "2026-10-12") = (str " ---\nhello", false) := by
  constructor
  · decide
  · simp [add_frontmatter_to_file,
      show has_frontmatter (str " ---\nhello") = true from by decide]

/-- C7 amended: a file is skipped exactly when its first line, stripped of
surrounding whitespace, equals the delimiter; otherwise it is rewritten as
the rendered front matter followed by its original content. -/
theorem C7_amended (fp content today : List Char) :
    (pyStrip (content.takeWhile notNl) = str "---" →
      add_frontmatter_to_file fp content today = (content, false))
    ∧ (pyStrip (content.takeWhile notNl) ≠ str "---" →
      add_frontmatter_to_file fp content today
        = (frontmatterText (resolveMeta fp content) today ++ content, true)) := by
  constructor <;> intro h <;>
    simp [add_frontmatter_to_file, has_frontmatter, h]

/-- C7 witness: both branches of the amended skip condition at concrete
files. -/
theorem C7_witness :
    add_frontmatter_to_file (rootSlash ++ str "a.md") (str " ---\nx")
      (str "2026-10-12") = (str " ---\nx", false)
    ∧ add_frontmatter_to_file (rootSlash ++ str "a.md") (str "plain")
        (str "2026-10-12")
      = (frontmatterText (resolveMeta (rootSlash ++ str "a.md") (str "plain"))
          (str "2026-10-12") ++ str "plain", true) :=
  ⟨(C7_amended (rootSlash ++ str "a.md") (str " ---\nx") (str "2026-10-12")).1 (by decide),
   (C7_amended (rootSlash ++ str "a.md") (str "plain") (str "2026-10-12")).2 (by decide)⟩

/-- C10: the guide rule breaks the at-least-two-tags guarantee: on a path
whose only fired rule is the guide rule the size-one augmentation adds the
tag guide to a set already containing it, so the returned list has exactly
one element.  This contradicts the source comment that the augmentation
ensures at least two tags, so it is a bug of the code. -/
theorem C10_guide_singleton :
    tagsRaw (lowerS (str "guide.md")) (lowerS (str "")) = [str "guide"]
    ∧ infer_tags (str "guide.md") (str "") = [str "guide"]
    ∧ (infer_tags (str "guide.md") (str "")).length = 1 := by
  decide

/-- C1 counterexample: the curated ADR-002 file is rendered with its stored
tags list, which is not alphabetically sorted. -/
theorem C1_counterexample :
    (resolveMeta (rootSlash ++ str "adr/002-three-tier-hierarchy.md")
        (str "sample")).tags
      = [str "adr", str "architecture", str "nostr", str "channels", str "design"]
    ∧ ¬ List.Sorted lexRel
        ((resolveMeta (rootSlash ++ str "adr/002-three-tier-hierarchy.md")
          (str "sample")).tags) := by
  decide

/-- C2 counterexample: for the developer auth-setup example file the
resolved category is tutorial, not reference, and the difficulty is
beginner, not intermediate, because the absolute documentation root
contains the substring user inside the word devuser. -/
theorem C2_counterexample :
    (resolveMeta (rootSlash ++ str "developer/auth-setup.md")
        (str "# Auth Setup\n\nConfigure authentication for the system.\n\n## Prereqs\nNone.")).category
      = str "tutorial"
    ∧ str "tutorial" ≠ str "reference"
    ∧ (resolveMeta (rootSlash ++ str "developer/auth-setup.md")
        (str "# Auth Setup\n\nConfigure authentication for the system.\n\n## Prereqs\nNone.")).difficulty
      = some (str "beginner")
    ∧ some (str "beginner") ≠ some (str "intermediate") := by
  decide

/-- C2 amended: for the developer auth-setup example file the resolved
title is the first heading text, the category is tutorial via the user
substring of the root, the difficulty is beginner, and the tags include
user, developer and authentication. -/
theorem C2_amended :
    (resolveMeta (rootSlash ++ str "developer/auth-setup.md")
        (str "# Auth Setup\n\nConfigure authentication for the system.\n\n## Prereqs\nNone.")).title
      = str "Auth Setup"
    ∧ (resolveMeta (rootSlash ++ str "developer/auth-setup.md")
        (str "# Auth Setup\n\nConfigure authentication for the system.\n\n## Prereqs\nNone.")).category
      = str "tutorial"
    ∧ (resolveMeta (rootSlash ++ str "developer/auth-setup.md")
        (str "# Auth Setup\n\nConfigure authentication for the system.\n\n## Prereqs\nNone.")).difficulty
      = some (str "beginner")
    ∧ str "user" ∈ (resolveMeta (rootSlash ++ str "developer/auth-setup.md")
        (str "# Auth Setup\n\nConfigure authentication for the system.\n\n## Prereqs\nNone.")).tags
    ∧ str "developer" ∈ (resolveMeta (rootSlash ++ str "developer/auth-setup.md")
        (str "# Auth Setup\n\nConfigure authentication for the system.\n\n## Prereqs\nNone.")).tags
    ∧ str "authentication" ∈ (resolveMeta (rootSlash ++ str "developer/auth-setup.md")
        (str "# Auth Setup\n\nConfigure authentication for the system.\n\n## Prereqs\nNone.")).tags := by
  decide

/-! Helper lemmas for the title search. -/

theorem dropWhile_ne_append {p : Char → Bool} :
    ∀ (x y : List Char), x.dropWhile p ≠ [] →
      (x ++ y).takeWhile p = x.takeWhile p
      ∧ (x ++ y).dropWhile p = x.dropWhile p ++ y := by
  intro x
  induction x with
  | nil => intro y h; exact absurd rfl h
  | cons c t ih =>
    intro y h
    cases hp : p c with
    | true =>
      rw [List.dropWhile_cons, hp] at h
      simp only [if_true] at h
      obtain ⟨h1, h2⟩ := ih y h
      constructor
      · rw [List.cons_append, List.takeWhile_cons, List.takeWhile_cons, hp]
        simp [h1]
      · rw [List.cons_append, List.dropWhile_cons, List.dropWhile_cons, hp]
        simp [h2]
    | false =>
      constructor
      · rw [List.cons_append, List.takeWhile_cons, List.takeWhile_cons, hp]
        simp
      · rw [List.cons_append, List.dropWhile_cons, List.dropWhile_cons, hp]
        simp

theorem takeWhile_notNl_all : ∀ (x : List Char), (∀ c ∈ x, c ≠ '\n') →
    x.takeWhile notNl = x := by
  intro x
  induction x with
  | nil => intro _; rfl
  | cons c t ih =>
    intro h
    rw [List.takeWhile_cons,
      show notNl c = true from by simp [notNl, h c (List.mem_cons_self _ _)]]
    simp [ih (fun d hd => h d (List.mem_cons_of_mem _ hd))]

theorem takeWhile_notNl_append : ∀ (x y : List Char), (∀ c ∈ x, c ≠ '\n') →
    (x ++ '\n' :: y).takeWhile notNl = x := by
  intro x
  induction x with
  | nil =>
    intro y _
    rw [List.nil_append, List.takeWhile_cons,
      show notNl '\n' = false from rfl]
    simp
  | cons c t ih =>
    intro y h
    rw [List.cons_append, List.takeWhile_cons,
      show notNl c = true from by simp [notNl, h c (List.mem_cons_self _ _)]]
    simp [ih y (fun d hd => h d (List.mem_cons_of_mem _ hd))]

theorem all_of_dropWhile_nil {p : Char → Bool} :
    ∀ (l : List Char), l.dropWhile p = [] → ∀ c ∈ l, p c = true := by
  intro l
  induction l with
  | nil => intro _ c hc; cases hc
  | cons a t ih =>
    intro h c hc
    rw [List.dropWhile_cons] at h
    cases hp : p a with
    | false => rw [hp] at h; simp at h
    | true =>
      rw [hp] at h
      simp only [if_true] at h
      rcases List.mem_cons.mp hc with h2 | h2
      · subst h2; exact hp
      · exact ih h c h2

theorem mem_of_mem_dropWhile {p : Char → Bool} :
    ∀ {l : List Char} {e : Char}, e ∈ l.dropWhile p → e ∈ l := by
  intro l
  induction l with
  | nil => intro e h; simp at h
  | cons a t ih =>
    intro e h
    rw [List.dropWhile_cons] at h
    cases hp : p a with
    | false => rw [hp] at h; simpa using h
    | true =>
      rw [hp] at h
      simp only [if_true] at h
      exact List.mem_cons_of_mem _ (ih h)

theorem dropWhile_head_false {p : Char → Bool} :
    ∀ {l : List Char} {c : Char} {t : List Char},
      l.dropWhile p = c :: t → p c = false := by
  intro l
  induction l with
  | nil => intro c t h; cases h
  | cons a l2 ih =>
    intro c t h
    rw [List.dropWhile_cons] at h
    cases hp : p a with
    | true => rw [hp] at h; simp only [if_true] at h; exact ih h
    | false =>
      rw [hp] at h
      simp only [Bool.false_eq_true, if_false, List.cons.injEq] at h
      rw [← h.1]
      exact hp

theorem dropWhile_dropWhile {p : Char → Bool} (l : List Char) :
    (l.dropWhile p).dropWhile p = l.dropWhile p := by
  cases h : l.dropWhile p with
  | nil => rfl
  | cons c t =>
    rw [List.dropWhile_cons, dropWhile_head_false h]
    simp

theorem pyStrip_dropWhile (l : List Char) :
    pyStrip (l.dropWhile isSpace) = pyStrip l := by
  unfold pyStrip
  rw [dropWhile_dropWhile]

theorem pyStrip_ne_nil {l : List Char} (h : l.dropWhile isSpace ≠ []) :
    pyStrip l ≠ [] := by
  intro hcon
  cases h2 : l.dropWhile isSpace with
  | nil => exact h h2
  | cons c t =>
    have hc : isSpace c = false := dropWhile_head_false h2
    unfold pyStrip at hcon
    rw [h2, List.reverse_eq_nil_iff] at hcon
    have := all_of_dropWhile_nil _ hcon c (by simp)
    rw [hc] at this
    cases this

theorem scanTitle_false_append : ∀ (l r : List Char), (∀ c ∈ l, c ≠ '\n') →
    scanTitle false (l ++ '\n' :: r) = scanTitle true r := by
  intro l
  induction l with
  | nil =>
    intro r _
    rw [List.nil_append, scanTitle, if_neg (by simp)]
    rfl
  | cons c t ih =>
    intro r hnl
    rw [List.cons_append, scanTitle, if_neg (by simp),
      show nlOnly c = false from by simp [nlOnly, hnl c (List.mem_cons_self _ _)]]
    exact ih r (fun d hd => hnl d (List.mem_cons_of_mem _ hd))

theorem scanTitle_false_none : ∀ (l : List Char), (∀ c ∈ l, c ≠ '\n') →
    scanTitle false l = none := by
  intro l
  induction l with
  | nil => intro _; rfl
  | cons c t ih =>
    intro hnl
    rw [scanTitle, if_neg (by simp),
      show nlOnly c = false from by simp [nlOnly, hnl c (List.mem_cons_self _ _)]]
    exact ih (fun d hd => hnl d (List.mem_cons_of_mem _ hd))

theorem tryHash_nonspace {d : Char} (rest : List Char) (h : isSpace d = false) :
    tryHash (d :: rest) = none := by
  unfold tryHash
  rw [List.takeWhile_cons, h]
  simp

theorem tryHash_line (d : Char) (t y : List Char) (hnl : ∀ c ∈ d :: t, c ≠ '\n')
    (hd : isSpace d = true) (hdrop : (d :: t).dropWhile isSpace ≠ []) :
    tryHash ((d :: t) ++ '\n' :: y) = some (pyStrip (d :: t)) := by
  obtain ⟨c, u, hcu⟩ : ∃ c u, (d :: t).dropWhile isSpace = c :: u := by
    cases hx : (d :: t).dropWhile isSpace with
    | nil => exact absurd hx hdrop
    | cons c u => exact ⟨c, u, rfl⟩
  obtain ⟨h1, h2⟩ := dropWhile_ne_append (d :: t) ('\n' :: y) hdrop
  have hcu_free : ∀ e ∈ c :: u, e ≠ '\n' := by
    intro e he
    have hsub : e ∈ (d :: t).dropWhile isSpace := by rw [hcu]; exact he
    exact hnl e (mem_of_mem_dropWhile hsub)
  unfold tryHash
  rw [h1, h2, hcu, List.takeWhile_cons, hd]
  simp only [if_true, List.cons_append]
  rw [show (c :: (u ++ '\n' :: y)).takeWhile notNl = c :: u from by
    have := takeWhile_notNl_append (c :: u) y hcu_free
    simpa [List.cons_append] using this]
  rw [show pyStrip (c :: u) = pyStrip (d :: t) from by
    rw [← hcu, pyStrip_dropWhile]]

theorem tryHash_last (d : Char) (t : List Char) (hnl : ∀ c ∈ d :: t, c ≠ '\n')
    (hd : isSpace d = true) (hdrop : (d :: t).dropWhile isSpace ≠ []) :
    tryHash (d :: t) = some (pyStrip (d :: t)) := by
  obtain ⟨c, u, hcu⟩ : ∃ c u, (d :: t).dropWhile isSpace = c :: u := by
    cases hx : (d :: t).dropWhile isSpace with
    | nil => exact absurd hx hdrop
    | cons c u => exact ⟨c, u, rfl⟩
  have hcu_free : ∀ e ∈ c :: u, e ≠ '\n' := by
    intro e he
    have hsub : e ∈ (d :: t).dropWhile isSpace := by rw [hcu]; exact he
    exact hnl e (mem_of_mem_dropWhile hsub)
  unfold tryHash
  rw [hcu, List.takeWhile_cons, hd]
  simp only [if_true]
  rw [takeWhile_notNl_all (c :: u) hcu_free]
  rw [show pyStrip (c :: u) = pyStrip (d :: t) from by
    rw [← hcu, pyStrip_dropWhile]]

theorem headingText_ne_hash {c : Char} (l : List Char) (h : c ≠ '#') :
    headingText (c :: l) = none := by
  unfold headingText
  split <;> simp_all

theorem headingText_hash_eq (d : Char) (l : List Char) :
    headingText ('#' :: d :: l)
      = (if isSpace d = true then
          (if (d :: l).dropWhile isSpace = [] then none
           else some (pyStrip (d :: l)))
         else none) := rfl

theorem headingText_nonspace {d : Char} (l : List Char) (h : isSpace d = false) :
    headingText ('#' :: d :: l) = none := by
  rw [headingText_hash_eq, if_neg (by simp [h])]

theorem headingText_space {d : Char} (l : List Char) (h : isSpace d = true)
    (h2 : (d :: l).dropWhile isSpace ≠ []) :
    headingText ('#' :: d :: l) = some (pyStrip (d :: l)) := by
  rw [headingText_hash_eq, if_pos h, if_neg h2]

theorem okLine_space_drop {d : Char} (l : List Char) (h : isSpace d = true)
    (hok : okLine ('#' :: d :: l) = true) :
    (d :: l).dropWhile isSpace ≠ [] := by
  by_cases hdr : (d :: l).dropWhile isSpace = []
  · simp [okLine, h, hdr] at hok
  · exact hdr

theorem scanTitle_step (l r : List Char) (hnl : ∀ c ∈ l, c ≠ '\n')
    (hok : okLine l = true) :
    scanTitle true (l ++ '\n' :: r)
      = (match headingText l with
         | some t => some t
         | none => scanTitle true r) := by
  cases l with
  | nil =>
    rw [List.nil_append, scanTitle, if_neg (by simp)]
    rfl
  | cons c l2 =>
    by_cases hc : c = '#'
    · subst hc
      cases l2 with
      | nil => simp [okLine] at hok
      | cons d l3 =>
        rw [List.cons_append, scanTitle, if_pos ⟨rfl, rfl⟩]
        by_cases hd : isSpace d = true
        · have hdrop := okLine_space_drop l3 hd hok
          rw [tryHash_line d l3 r (fun e he => hnl e (List.mem_cons_of_mem _ he)) hd hdrop,
            headingText_space l3 hd hdrop]
        · have hd2 : isSpace d = false := by simpa using hd
          rw [show ((d :: l3) ++ '\n' :: r) = d :: (l3 ++ '\n' :: r) from by simp,
            tryHash_nonspace _ hd2, headingText_nonspace l3 hd2]
          have hh := scanTitle_false_append (d :: l3) r
            (fun e he => hnl e (List.mem_cons_of_mem _ he))
          simpa [List.cons_append] using hh
    · rw [List.cons_append, scanTitle, if_neg (by simp [hc]),
        show nlOnly c = false from by simp [nlOnly, hnl c (List.mem_cons_self _ _)],
        scanTitle_false_append l2 r (fun e he => hnl e (List.mem_cons_of_mem _ he)),
        headingText_ne_hash l2 hc]

theorem scanTitle_last (l : List Char) (hnl : ∀ c ∈ l, c ≠ '\n')
    (hok : okLine l = true) : scanTitle true l = headingText l := by
  cases l with
  | nil => rfl
  | cons c l2 =>
    by_cases hc : c = '#'
    · subst hc
      cases l2 with
      | nil => simp [okLine] at hok
      | cons d l3 =>
        rw [scanTitle, if_pos ⟨rfl, rfl⟩]
        by_cases hd : isSpace d = true
        · have hdrop := okLine_space_drop l3 hd hok
          rw [tryHash_last d l3 (fun e he => hnl e (List.mem_cons_of_mem _ he)) hd hdrop,
            headingText_space l3 hd hdrop]
        · have hd2 : isSpace d = false := by simpa using hd
          rw [tryHash_nonspace _ hd2, headingText_nonspace l3 hd2]
          exact scanTitle_false_none (d :: l3)
            (fun e he => hnl e (List.mem_cons_of_mem _ he))
    · rw [scanTitle, if_neg (by simp [hc]),
        show nlOnly c = false from by simp [nlOnly, hnl c (List.mem_cons_self _ _)],
        headingText_ne_hash l2 hc]
      exact scanTitle_false_none l2 (fun e he => hnl e (List.mem_cons_of_mem _ he))

theorem joinNl_cons (l : List Char) (ls : List (List Char)) (h : ls ≠ []) :
    joinNl (l :: ls) = l ++ '\n' :: joinNl ls := by
  cases ls with
  | nil => exact absurd rfl h
  | cons a m => rfl

theorem splitNl_ne_nil : ∀ (s : List Char), splitNl s ≠ [] := by
  intro s
  cases s with
  | nil => simp [splitNl]
  | cons c r =>
    rw [splitNl]
    by_cases hc : c = '\n'
    · rw [if_pos hc]; simp
    · rw [if_neg hc]
      cases hs : splitNl r with
      | nil => simp
      | cons l ls => simp

theorem joinNl_splitNl : ∀ (s : List Char), joinNl (splitNl s) = s := by
  intro s
  induction s with
  | nil => rfl
  | cons c r ih =>
    rw [splitNl]
    by_cases hc : c = '\n'
    · rw [if_pos hc, joinNl_cons _ _ (splitNl_ne_nil r), ih, hc]
      rfl
    · rw [if_neg hc]
      cases hs : splitNl r with
      | nil => exact absurd hs (splitNl_ne_nil r)
      | cons l ls =>
        have hih : joinNl (l :: ls) = r := by rw [← hs]; exact ih
        cases ls with
        | nil =>
          simp only [joinNl] at hih ⊢
          rw [hih]
        | cons b mm =>
          rw [joinNl_cons _ _ (by simp)]
          rw [joinNl_cons _ _ (by simp)] at hih
          rw [List.cons_append, hih]

theorem splitNl_nlFree : ∀ (s : List Char), ∀ l ∈ splitNl s, ∀ c ∈ l, c ≠ '\n' := by
  intro s
  induction s with
  | nil =>
    intro l hl c hc
    simp [splitNl] at hl
    subst hl
    cases hc
  | cons d r ih =>
    intro l hl c hc
    rw [splitNl] at hl
    by_cases hd : d = '\n'
    · rw [if_pos hd] at hl
      rcases List.mem_cons.mp hl with h | h
      · subst h; cases hc
      · exact ih l h c hc
    · rw [if_neg hd] at hl
      cases hs : splitNl r with
      | nil => exact absurd hs (splitNl_ne_nil r)
      | cons l0 ls0 =>
        rw [hs] at hl
        rcases List.mem_cons.mp hl with h | h
        · subst h
          rcases List.mem_cons.mp hc with h2 | h2
          · subst h2; exact hd
          · refine ih l0 ?_ c h2
            rw [hs]
            exact List.mem_cons_self _ _
        · refine ih l ?_ c hc
          rw [hs]
          exact List.mem_cons_of_mem _ h

theorem headingText_some_ne : ∀ (l t : List Char), headingText l = some t → t ≠ [] := by
  intro l t h
  cases l with
  | nil => simp [headingText] at h
  | cons c l2 =>
    by_cases hc : c = '#'
    · subst hc
      cases l2 with
      | nil => simp [headingText] at h
      | cons d l3 =>
        rw [headingText_hash_eq] at h
        by_cases hd : isSpace d = true
        · rw [if_pos hd] at h
          by_cases hdr : (d :: l3).dropWhile isSpace = []
          · rw [if_pos hdr] at h; cases h
          · rw [if_neg hdr] at h
            have h2 := Option.some.inj h
            rw [← h2]
            exact pyStrip_ne_nil hdr
        · rw [if_neg hd] at h; cases h
    · rw [headingText_ne_hash l2 hc] at h; cases h

theorem specFindH1_cons (l : List Char) (ls : List (List Char)) :
    specFindH1 (l :: ls)
      = (match headingText l with
         | some t => some t
         | none => specFindH1 ls) := rfl

theorem specFindH1_ne_nil : ∀ (ls : List (List Char)) (t : List Char),
    specFindH1 ls = some t → t ≠ [] := by
  intro ls
  induction ls with
  | nil => intro t h; exact absurd h (by simp [specFindH1])
  | cons l ls2 ih =>
    intro t h
    rw [specFindH1_cons] at h
    cases hh : headingText l with
    | some t0 =>
      rw [hh] at h
      simp only [Option.some.injEq] at h
      rw [← h]
      exact headingText_some_ne l t0 hh
    | none =>
      rw [hh] at h
      exact ih t h

theorem scanTitle_lines : ∀ (ls : List (List Char)),
    (∀ l ∈ ls, (∀ c ∈ l, c ≠ '\n') ∧ okLine l = true) →
    scanTitle true (joinNl ls) = specFindH1 ls := by
  intro ls
  induction ls with
  | nil => intro _; rfl
  | cons l ls2 ih =>
    intro h
    have hl := h l (List.mem_cons_self _ _)
    cases ls2 with
    | nil =>
      show scanTitle true l = specFindH1 [l]
      rw [scanTitle_last l hl.1 hl.2, specFindH1_cons]
      cases hh : headingText l <;> simp [hh, specFindH1]
    | cons a m =>
      rw [joinNl_cons l (a :: m) (by simp),
        scanTitle_step l (joinNl (a :: m)) hl.1 hl.2,
        ih (fun l2 hl2 => h l2 (List.mem_cons_of_mem _ hl2))]
      exact (specFindH1_cons l (a :: m)).symm

/-- C8 amended: for every non-curated file in which no line consists of a
hash followed only by whitespace, the resolved title is the stripped text
of the first level-1 heading line, and when no such line exists it is the
stem-derived title-cased fallback.  (On excluded contents the regex
whitespace quantifier crosses the line break, as the counterexample
shows.) -/
theorem C8_amended (fp content : List Char)
    (hok : ∀ l ∈ splitNl content, okLine l = true)
    (hlook : metaLookup (relOf fp) METADATA_MAP = none) :
    (resolveMeta fp content).title
      = (match specFindH1 (splitNl content) with
         | some t => t
         | none => fallbackTitle fp) := by
  unfold resolveMeta
  rw [hlook]
  show resolveTitle fp content = _
  unfold resolveTitle extract_title_from_heading
  have hscan : scanTitle true content = specFindH1 (splitNl content) := by
    conv_lhs => rw [← joinNl_splitNl content]
    exact scanTitle_lines (splitNl content)
      (fun l hl => ⟨splitNl_nlFree content l hl, hok l hl⟩)
  rw [hscan]
  cases hh : specFindH1 (splitNl content) with
  | none => rfl
  | some t =>
    show (if t = [] then fallbackTitle fp else t) = t
    rw [if_neg (specFindH1_ne_nil (splitNl content) t hh)]

/-- C8 witness: the amended title rule at a concrete file whose heading is
on the second line. -/
theorem C8_witness :
    (resolveMeta (rootSlash ++ str "guides/intro-page.md")
        (str "Intro text\n# My Title\nBody text")).title
      = (match specFindH1 (splitNl (str "Intro text\n# My Title\nBody text")) with
         | some t => t
         | none => fallbackTitle (rootSlash ++ str "guides/intro-page.md")) :=
  C8_amended (rootSlash ++ str "guides/intro-page.md")
    (str "Intro text\n# My Title\nBody text") (by decide) (by decide)

/-- C8 counterexample: on content made of a bare hash line followed by a
text line, the regex whitespace quantifier crosses the line break: the
resolved title is the later text even though no line is a level-1 heading,
and it differs from the stem-derived fallback the claim prescribes. -/
theorem C8_counterexample :
    (resolveMeta (rootSlash ++ str "notes/deep-dive.md") (str "#\nHello")).title
      = str "Hello"
    ∧ specFindH1 (splitNl (str "#\nHello")) = none
    ∧ fallbackTitle (rootSlash ++ str "notes/deep-dive.md") = str "Deep Dive"
    ∧ str "Hello" ≠ str "Deep Dive" := by
  decide

/-! Helper lemmas for the description search. -/

theorem tryNlScan_skip : ∀ (h w : List Char), (∀ c ∈ h, c ≠ '\n') →
    tryNlScan (h ++ w) = tryNlScan w := by
  intro h
  induction h with
  | nil => intro w _; rfl
  | cons c h2 ih =>
    intro w hnl
    have hc : c ≠ '\n' := hnl c (List.mem_cons_self _ _)
    rw [List.cons_append, tryNlScan, if_neg hc]
    exact ih w (fun d hd => hnl d (List.mem_cons_of_mem _ hd))

theorem grab_gen : ∀ (p q : List Char), p ≠ [] → isTermB q = true →
    (∀ j, j < p.length → 0 < j → isTermB (p.drop j ++ q) = false) →
    grab (p ++ q) = some p := by
  intro p
  induction p with
  | nil => intro q hp _ _; exact absurd rfl hp
  | cons x p2 ih =>
    intro q _ hq hno
    cases p2 with
    | nil => rw [List.cons_append, List.nil_append, grab, if_pos hq]
    | cons y p3 =>
      have hterm : isTermB (y :: (p3 ++ q)) = false :=
        hno 1 (by simp only [List.length_cons]; omega) (by omega)
      have hshift : ∀ j, j < (y :: p3).length → 0 < j →
          isTermB ((y :: p3).drop j ++ q) = false := by
        intro j hjl hj
        exact hno (j + 1) (by simp only [List.length_cons] at hjl ⊢; omega) (by omega)
      have hih := ih q (by simp) hq hshift
      simp only [List.cons_append] at hih ⊢
      rw [grab, if_neg (by simp [hterm]), hih]
      rfl

theorem takeWhile_nl_run : ∀ (nls : List Char), (∀ e ∈ nls, e = '\n') →
    ∀ (c : Char) (x : List Char), c ≠ '\n' →
    (nls ++ c :: x).takeWhile nlOnly = nls
    ∧ (nls ++ c :: x).dropWhile nlOnly = c :: x := by
  intro nls
  induction nls with
  | nil =>
    intro _ c x hc
    constructor
    · rw [List.nil_append, List.takeWhile_cons,
        show nlOnly c = false from by simp [nlOnly, hc]]
      simp
    · rw [List.nil_append, List.dropWhile_cons,
        show nlOnly c = false from by simp [nlOnly, hc]]
      simp
  | cons e t ih =>
    intro hnls c x hc
    have he : e = '\n' := hnls e (List.mem_cons_self _ _)
    have hih := ih (fun d hd => hnls d (List.mem_cons_of_mem _ hd)) c x hc
    constructor
    · rw [List.cons_append, List.takeWhile_cons,
        show nlOnly e = true from by simp [nlOnly, he]]
      simp [hih.1]
    · rw [List.cons_append, List.dropWhile_cons,
        show nlOnly e = true from by simp [nlOnly, he]]
      simp [hih.2]

theorem tryNlScan_hit (nls : List Char) (hnls : ∀ e ∈ nls, e = '\n')
    (c : Char) (p2 q : List Char) (hc : c ≠ '\n')
    (hg : grab ((c :: p2) ++ q) = some (c :: p2)) :
    tryNlScan ('\n' :: (nls ++ ((c :: p2) ++ q))) = some (c :: p2) := by
  obtain ⟨h1, h2⟩ := takeWhile_nl_run nls hnls c (p2 ++ q) hc
  rw [tryNlScan, if_pos rfl]
  simp only [List.cons_append] at hg ⊢
  rw [h1, h2, Nat.add_comm 1 nls.length, tryDesc, hg]

theorem sufOK_tail {c : Char} {v : List Char}
    (h : ∀ j, isTermB ((c :: v).drop j) = false) :
    ∀ j, isTermB (v.drop j) = false := by
  intro j
  exact h (j + 1)

theorem grab_none : ∀ (v : List Char), (∀ j, isTermB (v.drop j) = false) →
    grab v = none := by
  intro v
  induction v with
  | nil => intro _; rfl
  | cons c r ih =>
    intro h
    have hr : isTermB r = false := h 1
    rw [grab, if_neg (by simp [hr]), ih (sufOK_tail h)]
    rfl

theorem drop_replicate_nl : ∀ (m : Nat) (w : List Char) (j : Nat),
    (List.replicate m '\n' ++ w).drop (m + j) = w.drop j := by
  intro m
  induction m with
  | zero => intro w j; simp
  | succ n ih =>
    intro w j
    rw [List.replicate_succ, List.cons_append,
      show n + 1 + j = (n + j) + 1 from by omega, List.drop_succ_cons]
    exact ih w j

theorem replicate_nl_shift : ∀ (f : Nat) (v : List Char),
    List.replicate f '\n' ++ '\n' :: v = List.replicate (f + 1) '\n' ++ v := by
  intro f v
  induction f with
  | zero => rfl
  | succ n ih =>
    show '\n' :: (List.replicate n '\n' ++ '\n' :: v)
      = '\n' :: (List.replicate (n + 1) '\n' ++ v)
    exact congrArg (List.cons '\n') ih

theorem tryDesc_none : ∀ (f : Nat) (v : List Char),
    (∀ j, isTermB ((List.replicate f '\n' ++ v).drop j) = false) →
    tryDesc (f + 1) v = none := by
  intro f
  induction f with
  | zero =>
    intro v h
    have hv : ∀ j, isTermB (v.drop j) = false := by
      intro j
      have h2 := h j
      simpa using h2
    rw [tryDesc, grab_none v hv]
    rfl
  | succ n ih =>
    intro v h
    have hv : ∀ j, isTermB (v.drop j) = false := by
      intro j
      have h2 := h (n + 1 + j)
      rwa [drop_replicate_nl] at h2
    rw [tryDesc, grab_none v hv]
    exact ih ('\n' :: v) (by rw [replicate_nl_shift]; exact h)

theorem takeWhile_nlOnly_replicate : ∀ (l : List Char),
    l.takeWhile nlOnly = List.replicate (l.takeWhile nlOnly).length '\n' := by
  intro l
  induction l with
  | nil => rfl
  | cons c r ih =>
    by_cases hc : c = '\n'
    · subst hc
      rw [List.takeWhile_cons, show nlOnly '\n' = true from rfl]
      simp only [if_true, List.length_cons, List.replicate_succ]
      exact congrArg (List.cons '\n') ih
    · rw [List.takeWhile_cons, show nlOnly c = false from by simp [nlOnly, hc]]
      simp

theorem tryNlScan_none : ∀ (w : List Char), (∀ j, isTermB (w.drop j) = false) →
    tryNlScan w = none := by
  intro w
  induction w with
  | nil => intro _; rfl
  | cons c rest ih =>
    intro h
    have hrest := sufOK_tail h
    by_cases hc : c = '\n'
    · rw [tryNlScan, if_pos hc]
      have hsplit : List.replicate (rest.takeWhile nlOnly).length '\n'
          ++ rest.dropWhile nlOnly = rest := by
        rw [← takeWhile_nlOnly_replicate rest]
        exact List.takeWhile_append_dropWhile nlOnly rest
      have hd := tryDesc_none (rest.takeWhile nlOnly).length (rest.dropWhile nlOnly)
        (by rw [hsplit]; exact hrest)
      rw [show (1 + (rest.takeWhile nlOnly).length)
          = (rest.takeWhile nlOnly).length + 1 from Nat.add_comm _ _, hd]
      exact ih hrest
    · rw [tryNlScan, if_neg hc]
      exact ih hrest

theorem matchAt_hash (w : List Char) :
    matchAt ('#' :: w)
      = (match tryNlScan w with
         | some g => some g
         | none => grab ('#' :: w)) := rfl

theorem matchAt_ne_hash {c : Char} (w : List Char) (h : c ≠ '#') :
    matchAt (c :: w) = grab (c :: w) := by
  unfold matchAt
  split <;> simp_all

theorem matchAt_none (u : List Char) (h : ∀ j, isTermB (u.drop j) = false) :
    matchAt u = none := by
  cases u with
  | nil => rfl
  | cons c w =>
    by_cases hc : c = '#'
    · subst hc
      rw [matchAt_hash, tryNlScan_none w (sufOK_tail h), grab_none _ h]
    · rw [matchAt_ne_hash w hc, grab_none _ h]

theorem searchLines_none : ∀ (s : List Char), (∀ j, isTermB (s.drop j) = false) →
    searchLines s = none := by
  intro s
  induction s with
  | nil => intro _; rfl
  | cons c rest ih =>
    intro h
    have hrest := sufOK_tail h
    by_cases hc : c = '\n'
    · rw [searchLines, if_pos hc, matchAt_none rest hrest]
      exact ih hrest
    · rw [searchLines, if_neg hc]
      exact ih hrest

theorem searchDesc_none (s : List Char) (h : ∀ j, isTermB (s.drop j) = false) :
    searchDesc s = none := by
  unfold searchDesc
  rw [matchAt_none s h]
  exact searchLines_none s h

theorem noTerm_of_bounded (s : List Char)
    (h : ∀ j, j < s.length → isTermB (s.drop j) = false) :
    ∀ j, isTermB (s.drop j) = false := by
  intro j
  by_cases hj : j < s.length
  · exact h j hj
  · rw [List.drop_eq_nil_of_le (Nat.le_of_not_lt hj)]
    rfl

/-- C9 amended: the resolved description of a non-curated file is the first
paragraph bounded by a terminator, in three clauses.  First, for content
made of a hash, a newline-free heading remainder, a newline run, then a
nonempty paragraph (possibly spanning several lines) that contains no
terminator inside and is followed by one (a blank line or a newline and two
hashes), the description is that paragraph stripped, whitespace-normalised
and truncated to at most two hundred characters.  Second, the same holds
for content not starting with a hash, the paragraph then starting at the
top of the file.  Third, when the content contains no terminator at any
position, the description is the resolved title followed by the word
documentation.  (When the region after the leading heading lacks a
terminator while an earlier region has one, the regex captures the earlier
region instead, as the counterexample shows.) -/
theorem C9_amended :
    (∀ (fp hl nls : List Char) (c : Char) (p2 q : List Char),
      metaLookup (relOf fp) METADATA_MAP = none →
      (∀ e ∈ hl, e ≠ '\n') → (∀ e ∈ nls, e = '\n') → c ≠ '\n' →
      (∀ j, j < (c :: p2).length → 0 < j →
        isTermB ((c :: p2).drop j ++ q) = false) →
      isTermB q = true →
      (resolveMeta fp ('#' :: (hl ++ '\n' :: (nls ++ ((c :: p2) ++ q))))).description
        = (normWs (pyStrip (c :: p2))).take 200)
    ∧ (∀ (fp : List Char) (c : Char) (p2 q : List Char),
      metaLookup (relOf fp) METADATA_MAP = none →
      c ≠ '#' →
      (∀ j, j < (c :: p2).length → 0 < j →
        isTermB ((c :: p2).drop j ++ q) = false) →
      isTermB q = true →
      (resolveMeta fp ((c :: p2) ++ q)).description
        = (normWs (pyStrip (c :: p2))).take 200)
    ∧ (∀ (fp content : List Char),
      metaLookup (relOf fp) METADATA_MAP = none →
      (∀ j, j < content.length → isTermB (content.drop j) = false) →
      (resolveMeta fp content).description
        = (resolveMeta fp content).title ++ str " documentation") := by
  refine ⟨?_, ?_, ?_⟩
  · intro fp hl nls c p2 q hlook hhl hnls hc hno hq
    unfold resolveMeta
    rw [hlook]
    show descOf _ _ = _
    unfold descOf
    have hgrab : grab ((c :: p2) ++ q) = some (c :: p2) :=
      grab_gen (c :: p2) q (by simp) hq hno
    have hnl : tryNlScan (hl ++ '\n' :: (nls ++ ((c :: p2) ++ q))) = some (c :: p2) := by
      rw [tryNlScan_skip hl _ hhl]
      exact tryNlScan_hit nls hnls c p2 q hc hgrab
    have hm : matchAt ('#' :: (hl ++ '\n' :: (nls ++ ((c :: p2) ++ q)))) = some (c :: p2) := by
      simp only [matchAt, hnl]
    have hs : searchDesc ('#' :: (hl ++ '\n' :: (nls ++ ((c :: p2) ++ q)))) = some (c :: p2) := by
      unfold searchDesc
      rw [hm]
    rw [hs]
  · intro fp c p2 q hlook hc hno hq
    unfold resolveMeta
    rw [hlook]
    show descOf _ _ = _
    unfold descOf
    have hgrab : grab ((c :: p2) ++ q) = some (c :: p2) :=
      grab_gen (c :: p2) q (by simp) hq hno
    have hm : matchAt ((c :: p2) ++ q) = some (c :: p2) := by
      rw [List.cons_append, matchAt_ne_hash _ hc]
      simpa [List.cons_append] using hgrab
    have hs : searchDesc ((c :: p2) ++ q) = some (c :: p2) := by
      unfold searchDesc
      rw [hm]
    rw [hs]
  · intro fp content hlook hno
    have hall := noTerm_of_bounded content hno
    unfold resolveMeta
    rw [hlook]
    show descOf (resolveTitle fp content) content
      = resolveTitle fp content ++ str " documentation"
    unfold descOf
    rw [searchDesc_none content hall]

/-- C9 witness: the amended description rule at three concrete files: a
heading followed by a blank line and a two-line paragraph ended by a blank
line, a headingless paragraph ended by a level-2 heading, and a file with
no terminator at all falling back to the documentation description. -/
theorem C9_witness :
    (resolveMeta (rootSlash ++ str "notes/alpha.md")
        ('#' :: (str " Heading" ++ '\n' :: (['\n']
          ++ (('S' :: str "ome text\nover two lines.")
            ++ str "\n\n## Next\nstuff"))))).description
      = (normWs (pyStrip ('S' :: str "ome text\nover two lines."))).take 200
    ∧ (resolveMeta (rootSlash ++ str "notes/beta.md")
        (('J' :: str "ust text here.") ++ str "\n##Sub\nmore")).description
      = (normWs (pyStrip ('J' :: str "ust text here."))).take 200
    ∧ (resolveMeta (rootSlash ++ str "notes/gamma.md")
        (str "# Tiny\nno terminator")).description
      = (resolveMeta (rootSlash ++ str "notes/gamma.md")
          (str "# Tiny\nno terminator")).title ++ str " documentation" :=
  ⟨C9_amended.1 (rootSlash ++ str "notes/alpha.md") (str " Heading") ['\n'] 'S'
      (str "ome text\nover two lines.") (str "\n\n## Next\nstuff")
      (by decide) (by decide) (by decide) (by decide) (by decide) (by decide),
   C9_amended.2.1 (rootSlash ++ str "notes/beta.md") 'J' (str "ust text here.")
      (str "\n##Sub\nmore") (by decide) (by decide) (by decide) (by decide),
   C9_amended.2.2 (rootSlash ++ str "notes/gamma.md") (str "# Tiny\nno terminator")
      (by decide) (by decide)⟩

/-- C9 counterexample: on content whose paragraph after the heading has no
terminating blank line, the description regex falls back to capturing the
heading line itself: the description is neither the paragraph nor the
documentation fallback the claim prescribes. -/
theorem C9_counterexample :
    (resolveMeta (rootSlash ++ str "notes/intro.md")
        (str "# Title\n\nOnly paragraph")).description = str "# Title"
    ∧ str "# Title" ≠ str "Only paragraph"
    ∧ (resolveMeta (rootSlash ++ str "notes/intro.md")
        (str "# Title\n\nOnly paragraph")).title ++ str " documentation"
      = str "Title documentation"
    ∧ str "# Title" ≠ str "Title documentation" := by
  decide

end AddFrontmatter
